import Mathlib

/-!
# Verification of the pyco/unpyc PYC container format

A shallow embedding of `pyco.py` (the Builder: interning pools, the
constant compiler `ComplexConstant`, varint/section serialization) and
`unpyc.py` (the Reader: header parsing and lazy blob access), together
with proofs about the embedded definitions.

Modelling conventions:
* Python `bytes` values are `List Nat` (each element a byte value).
* Python machine-independent ints are `Int`/`Nat`; instruction opargs are
  `Nat` exactly as the source stores non-negative operands.
* Python floats are modelled as exact decimal values `mant * 10^(-exp)`
  (`FloatV`); Python float equality on such values is exact rational
  equality, modelled by cross multiplication.  IEEE-754 bit patterns
  (`struct.pack "<d"`) are outside the shallow embedding; the 8 payload
  bytes of a float blob are produced by a stand-in encoding which no
  theorem below inspects.
* A Python `assert` failure or uncaught exception is `Option.none`.
* The recursion of `Builder.add_constant` / `ComplexConstant.generate`
  is expressed with an explicit fuel parameter; every theorem about it
  quantifies over all fuel values for which the computation succeeds,
  which are exactly the runs the Python code performs.
* The value domain covers the literal kinds the claims exercise
  (`None`, `bool`, `int`, `float`, `complex`, `bytes`, `str`, `tuple`);
  code objects and frozensets are outside the model.
-/

/-! ## Opcodes (values from CPython 3.10 `dis.opmap` plus `updis.py`) -/

def UNARY_NEGATIVE : Nat := 11
def BUILD_TUPLE : Nat := 102
def BUILD_SET : Nat := 103
def EXTENDED_ARG : Nat := 144
def LAZY_LOAD_CONSTANT : Nat := 170
def MAKE_STRING : Nat := 171
def MAKE_INT : Nat := 172
def MAKE_LONG : Nat := 173
def MAKE_FLOAT : Nat := 174
def MAKE_COMPLEX : Nat := 175
def MAKE_FROZEN_SET : Nat := 176
def MAKE_CODE_OBJECT : Nat := 177
def MAKE_BYTES : Nat := 178
def LOAD_COMMON_CONSTANT : Nat := 179
def RETURN_CONSTANT : Nat := 180

/-! ## Values -/

/-- Exact decimal model of a Python float literal: the value
`mant * 10 ^ (- exp)`. -/
structure FloatV where
  mant : Int
  exp : Nat

/-- Python `==` on two modelled floats: exact numeric equality of the
decimal values, by cross multiplication. -/
def floatEq (x y : FloatV) : Bool :=
  x.mant * (10 : Int) ^ y.exp == y.mant * (10 : Int) ^ x.exp

/-- The literal values handled by `ComplexConstant.generate`. -/
inductive Value where
  | pynone
  | bool (b : Bool)
  | int (i : Int)
  | float (x : FloatV)
  | complex (re im : FloatV)
  | bytes (bs : List Nat)
  | str (s : String)
  | tuple (items : List Value)

/-- The numeric view Python `==` uses across `bool`/`int`/`float`/
`complex`: the (real, imaginary) parts, or `none` for non-numbers. -/
def toNum : Value → Option (FloatV × FloatV)
  | Value.bool b => some (⟨if b then 1 else 0, 0⟩, ⟨0, 0⟩)
  | Value.int i => some (⟨i, 0⟩, ⟨0, 0⟩)
  | Value.float x => some (x, ⟨0, 0⟩)
  | Value.complex re im => some (re, im)
  | _ => Option.none

mutual
/-- Python `==` on the modelled value domain: `None` only equals `None`,
`bytes`/`str` compare structurally, tuples compare pointwise, and all
numeric kinds (`bool`, `int`, `float`, `complex`) compare by numeric
value regardless of type, as Python does (`0 == False`, `0 == 0.0`). -/
def pyEq : Value → Value → Bool
  | Value.pynone, Value.pynone => true
  | Value.bytes a, Value.bytes b => a == b
  | Value.str a, Value.str b => a == b
  | Value.tuple a, Value.tuple b => pyEqList a b
  | v, w =>
      match toNum v, toNum w with
      | some p, some q => floatEq p.1 q.1 && floatEq p.2 q.2
      | _, _ => false

/-- Pointwise Python `==` on tuple contents. -/
def pyEqList : List Value → List Value → Bool
  | [], [] => true
  | x :: xs, y :: ys => pyEq x y && pyEqList xs ys
  | _, _ => false
end

/-! ## Blob pool entries (`LongInt` / `Float` / `Bytes` in pyco.py) -/

/-- One entry of the blob pool: `LongInt`, `Float` or `Bytes`. -/
inductive Blob where
  | longInt (i : Int)
  | float (x : FloatV)
  | bytes (bs : List Nat)

/-- The equality `Builder.add` applies to blob entries:
`type(it) is type(thing) and it.value == thing.value`. -/
def blobEq : Blob → Blob → Bool
  | Blob.longInt a, Blob.longInt b => a == b
  | Blob.float a, Blob.float b => floatEq a b
  | Blob.bytes a, Blob.bytes b => a == b
  | _, _ => false

/-! ## ComplexConstant and the Builder -/

/-- State of one `ComplexConstant`: the value, the `(opcode, oparg)`
instruction list, the running and maximal simulated stack size, and the
pool index (`-1` until `set_index` runs). -/
structure CC where
  value : Value
  instructions : List (Nat × Nat)
  stacksize : Int
  max_stacksize : Int
  index : Int

/-- A fresh `ComplexConstant value builder` before `set_index`. -/
def freshCC (v : Value) : CC :=
  { value := v, instructions := [], stacksize := 0, max_stacksize := 0, index := -1 }

/-- `ComplexConstant.emit`: append an instruction and track the stack. -/
def CC.emit (cc : CC) (opcode oparg : Nat) (stackeffect : Int) : CC :=
  { cc with
    instructions := cc.instructions ++ [(opcode, oparg)],
    stacksize := cc.stacksize + stackeffect,
    max_stacksize := max cc.max_stacksize (cc.stacksize + stackeffect) }

/-- Builder state: the four interning pools (code objects are outside the
modelled domain and its pool stays empty) and the `locked` flag. -/
structure Builder where
  strings : List String
  blobs : List Blob
  constants : List CC
  locked : Bool

def emptyBuilder : Builder :=
  { strings := [], blobs := [], constants := [], locked := false }

/-- `Builder.lock`. -/
def Builder.lock (b : Builder) : Builder := { b with locked := true }

/-- The scan loop of `Builder.add`: index of the first entry of `pool`
matching `t` under `eqf`. -/
def poolFind {α : Type} (eqf : α → α → Bool) (t : α) : List α → Option Nat
  | [] => Option.none
  | x :: xs => if eqf x t then some 0 else (poolFind eqf t xs).map (· + 1)

/-- `Builder.add`: return the index of the first matching entry, else
append (failing, like the Python `assert not self.locked`, when the pool
is locked).  Returns the updated pool and the index. -/
def poolAdd {α : Type} (eqf : α → α → Bool) (locked : Bool) (pool : List α)
    (thing : α) : Option (List α × Nat) :=
  match poolFind eqf thing pool with
  | some i => some (pool, i)
  | Option.none => if locked then Option.none else some (pool ++ [thing], pool.length)

/-- `Builder.add_string` (the `String` wrapper compares `str` values). -/
def Builder.add_string (b : Builder) (s : String) : Option (Builder × Nat) :=
  match poolAdd (fun a c => a == c) b.locked b.strings s with
  | some (pool, i) => some ({ b with strings := pool }, i)
  | Option.none => Option.none

/-- Common part of `add_bytes` / `add_long` / `add_float`. -/
def Builder.add_blob (b : Builder) (bl : Blob) : Option (Builder × Nat) :=
  match poolAdd blobEq b.locked b.blobs bl with
  | some (pool, i) => some ({ b with blobs := pool }, i)
  | Option.none => Option.none

def Builder.add_bytes (b : Builder) (bs : List Nat) : Option (Builder × Nat) :=
  b.add_blob (Blob.bytes bs)

def Builder.add_long (b : Builder) (i : Int) : Option (Builder × Nat) :=
  b.add_blob (Blob.longInt i)

def Builder.add_float (b : Builder) (x : FloatV) : Option (Builder × Nat) :=
  b.add_blob (Blob.float x)

/-! ## The constant compiler

`Builder.add_constant`, `ComplexConstant.set_index` and
`ComplexConstant.generate` are mutually recursive through tuple
elements; the recursion is driven by a fuel parameter. -/

mutual
/-- `Builder.add_constant`: build a `ComplexConstant`, intern it with
`Builder.add` (comparing by Python `==` on values), then run
`set_index` on the freshly built object — also on a dedup hit, exactly
as the source does (the generated instructions are then discarded but
the pool side effects remain). -/
def addConstant : Nat → Builder → Value → Option (Builder × Nat)
  | 0, _, _ => Option.none
  | fuel + 1, b, v =>
    match poolFind (fun it th => pyEq it.value th.value) (freshCC v) b.constants with
    | some i =>
      match setIndex fuel b v i with
      | some (b2, _) => some (b2, i)
      | Option.none => Option.none
    | Option.none =>
      if b.locked then Option.none
      else
        let index := b.constants.length
        let b1 := { b with constants := b.constants ++ [freshCC v] }
        match setIndex fuel b1 v index with
        | some (b2, cc) =>
          some ({ b2 with constants := b2.constants.set index cc }, index)
        | Option.none => Option.none

/-- `ComplexConstant.set_index`: record the index, generate code for the
value, then emit the terminal `RETURN_CONSTANT` naming the own index. -/
def setIndex : Nat → Builder → Value → Nat → Option (Builder × CC)
  | 0, _, _, _ => Option.none
  | fuel + 1, b, v, index =>
    match generate fuel b { freshCC v with index := (index : Int) } v with
    | some (b2, cc) => some (b2, cc.emit RETURN_CONSTANT index 0)
    | Option.none => Option.none

/-- `ComplexConstant.generate`: the match over the value domain. -/
def generate : Nat → Builder → CC → Value → Option (Builder × CC)
  | 0, _, _, _ => Option.none
  | fuel + 1, b, cc, v =>
    match v with
    | Value.pynone => some (b, cc.emit LOAD_COMMON_CONSTANT 0 1)
    | Value.bool x => some (b, cc.emit LOAD_COMMON_CONSTANT (if x then 2 else 1) 1)
    | Value.int i =>
      if 0 ≤ i ∧ i < 65536 then some (b, cc.emit MAKE_INT i.toNat 1)
      else if -256 ≤ i ∧ i < 0 then
        some (b, (cc.emit MAKE_INT (-i).toNat 1).emit UNARY_NEGATIVE 0 0)
      else
        match b.add_long i with
        | some (b2, j) => some (b2, cc.emit MAKE_LONG j 1)
        | Option.none => Option.none
    | Value.float x =>
      match b.add_float x with
      | some (b2, j) => some (b2, cc.emit MAKE_FLOAT j 1)
      | Option.none => Option.none
    | Value.complex re im =>
      match b.add_float re with
      | some (b2, j1) =>
        match b2.add_float im with
        | some (b3, j2) =>
          some (b3, ((cc.emit MAKE_FLOAT j1 1).emit MAKE_FLOAT j2 1).emit MAKE_COMPLEX 0 (-1))
        | Option.none => Option.none
      | Option.none => Option.none
    | Value.bytes bs =>
      match b.add_bytes bs with
      | some (b2, j) => some (b2, cc.emit MAKE_BYTES j 1)
      | Option.none => Option.none
    | Value.str s =>
      match b.add_string s with
      | some (b2, j) => some (b2, cc.emit MAKE_STRING j 1)
      | Option.none => Option.none
    | Value.tuple items =>
      match genItems fuel b cc items with
      | some (b2, cc2) =>
        some (b2, cc2.emit BUILD_TUPLE items.length (1 - (items.length : Int)))
      | Option.none => Option.none

/-- The per-element loop of the tuple case of `generate`: intern each
element as its own constant-program and emit `LAZY_LOAD_CONSTANT`. -/
def genItems : Nat → Builder → CC → List Value → Option (Builder × CC)
  | 0, _, _, _ => Option.none
  | _ + 1, b, cc, [] => some (b, cc)
  | fuel + 1, b, cc, x :: xs =>
    match addConstant fuel b x with
    | some (b2, j) => genItems fuel b2 (cc.emit LAZY_LOAD_CONSTANT j 1) xs
    | Option.none => Option.none
end

/-- A whole build: intern each top-level value in order, starting from
the empty Builder (the `main` driver path). -/
def buildAll (fuel : Nat) (vs : List Value) : Option Builder :=
  vs.foldlM (fun b v => (addConstant fuel b v).map Prod.fst) emptyBuilder

/-! ## Scalar codecs (`encode_varint` and friends) -/

/-- The `while i:` loop of `encode_varint` for a positive argument,
little-endian base-128 groups with the high bit set on every non-final
byte.  `fuel ≥ i` always suffices. -/
def encVarAux : Nat → Nat → List Nat
  | 0, _ => []
  | _ + 1, 0 => []
  | fuel + 1, i =>
    (if i / 128 = 0 then i % 128 else i % 128 + 128) :: encVarAux fuel (i / 128)

/-- `encode_varint`: `b"\x00"` for zero, the LEB128 loop for positive
arguments, and an `AssertionError` (`none`) for negative arguments. -/
def encode_varint (i : Int) : Option (List Nat) :=
  if i = 0 then some [0]
  else if 0 < i then some (encVarAux i.toNat i.toNat) else Option.none

/-- The loop of `Reader.read_varint`, returning the decoded value and
the number of bytes consumed; `none` models reading past the buffer. -/
def decodeVarintAux : List Nat → Nat → Nat → Option (Nat × Nat)
  | [], _, _ => Option.none
  | byte :: rest, shift, acc =>
    if byte &&& 128 = 0 then some (acc ||| ((byte &&& 127) <<< shift), 1)
    else
      match decodeVarintAux rest (shift + 7) (acc ||| ((byte &&& 127) <<< shift)) with
      | some (v, k) => some (v, k + 1)
      | Option.none => Option.none

/-- `Reader.read_varint` on a byte list: value and bytes consumed. -/
def decode_varint (l : List Nat) : Option (Nat × Nat) :=
  decodeVarintAux l 0 0

/-! ## Instruction serialization (`ComplexConstant.get_bytes`) -/

/-- The `while oparg:` byte-splitting loop of `ComplexConstant.get_bytes`:
little-endian 8-bit groups of a positive operand.  `fuel ≥ n` suffices. -/
def byteGroupsAux : Nat → Nat → List Nat
  | 0, _ => []
  | _ + 1, 0 => []
  | fuel + 1, n => n % 256 :: byteGroupsAux fuel (n / 256)

/-- Serialization of one `(opcode, oparg)` pair: operands of at least 256
get a chain of `EXTENDED_ARG` prefixes holding the high-order 8-bit
groups, most significant first; the real opcode carries the lowest. -/
def instrToBytes (op arg : Nat) : List Nat :=
  if 256 ≤ arg then
    let groups := (byteGroupsAux arg arg).reverse
    (groups.dropLast.map (fun g => [EXTENDED_ARG, g])).flatten ++ [op, groups.getLastD 0]
  else [op, arg]

/-- The instruction area of `ComplexConstant.get_bytes`. -/
def instrBytes (l : List (Nat × Nat)) : List Nat :=
  (l.map (fun p => instrToBytes p.1 p.2)).flatten

/-- Little-endian 16-bit encoding (`struct.pack "<H"`). -/
def le16 (n : Nat) : List Nat := [n % 256, n / 256 % 256]

/-- Little-endian 32-bit encoding (`struct.pack "<L"`). -/
def le32 (n : Nat) : List Nat :=
  [n % 256, n / 256 % 256, n / 65536 % 256, n / 16777216 % 256]

/-- `ComplexConstant.get_bytes`: `<LL>` prefix (max stack size, number of
instruction pairs) followed by the instruction bytes. -/
def constantGetBytes (cc : CC) : List Nat :=
  le32 cc.max_stacksize.toNat ++ le32 ((instrBytes cc.instructions).length / 2)
    ++ instrBytes cc.instructions

/-- `String.get_bytes`: varint byte length plus UTF-8 bytes. -/
def stringGetBytes (s : String) : List Nat :=
  let b := s.toUTF8.toList.map (fun c => c.toNat)
  (encVarAux b.length b.length) ++ b

/-- Blob record serialization (`LongInt.get_bytes`, `Float.get_bytes`,
`Bytes.get_bytes`).  A negative `LongInt` hits the `assert i > 0` of
`encode_varint` and fails.  The 8 float payload bytes stand in for the
IEEE-754 encoding, which is outside the shallow embedding; no theorem
inspects them. -/
def blobGetBytes : Blob → Option (List Nat)
  | Blob.longInt i => encode_varint i
  | Blob.float x => some (le32 x.mant.natAbs ++ le32 x.exp)
  | Blob.bytes bs =>
    match encode_varint (bs.length : Int) with
    | some l => some (l ++ bs)
    | Option.none => Option.none

/-- The inner `helper` of `Builder.get_bytes`: fold a pool's payload
records onto the shared binary data, recording each record's absolute
offset (`binary_section_start + len(binary_data)`) as 4 little-endian
bytes. -/
def helper (start : Nat) (data : List Nat) (payloads : List (List Nat)) :
    List Nat × List Nat :=
  payloads.foldl (fun acc p => (acc.1 ++ le32 (start + acc.2.length), acc.2 ++ p)) ([], data)

/-- `Builder.get_bytes`: header, the four offset tables (the code-object
pool is empty in the modelled domain), then the concatenated payload
records.  Fails when any blob record fails to serialize. -/
def builderGetBytes (b : Builder) : Option (List Nat) :=
  match b.blobs.mapM blobGetBytes with
  | Option.none => Option.none
  | some blobPayloads =>
    let constPayloads := b.constants.map constantGetBytes
    let stringPayloads := b.strings.map stringGetBytes
    let code_section_size := 0
    let const_section_size := 4 + 4 * b.constants.length
    let string_section_size := 4 + 4 * b.strings.length
    let blob_section_size := 4 + 4 * b.blobs.length
    let start := 16 + code_section_size + const_section_size
      + string_section_size + blob_section_size
    let r1 := helper start [] constPayloads
    let r2 := helper start r1.2 stringPayloads
    let r3 := helper start r2.2 blobPayloads
    let prefix_size := 16 + 4 + r1.1.length + 4 + r2.1.length + 4 + r3.1.length
    let header := [46, 112, 121, 99] ++ le16 0 ++ le16 0 ++ le32 0
      ++ le32 (prefix_size + r3.2.length)
    some (header ++ le32 b.constants.length ++ r1.1
      ++ le32 b.strings.length ++ r2.1
      ++ le32 b.blobs.length ++ r3.1 ++ r3.2)

/-! ## The Reader (`unpyc.py`) -/

/-- `Reader` state: the underlying buffer and the current position. -/
structure RState where
  data : List Nat
  pos : Nat

/-- `Reader.read_raw_bytes`: the next `n` bytes, with the bound check. -/
def read_raw_bytes (r : RState) (n : Nat) : Option (List Nat × RState) :=
  if r.pos + n ≤ r.data.length then
    some ((r.data.drop r.pos).take n, { r with pos := r.pos + n })
  else Option.none

/-- `Reader.read_varint` against the reader state. -/
def read_varint_r (r : RState) : Option (Nat × RState) :=
  match decode_varint (r.data.drop r.pos) with
  | some (v, k) => some (v, { r with pos := r.pos + k })
  | Option.none => Option.none

/-- `Reader.read_short` (little-endian 16-bit). -/
def read_short (r : RState) : Option (Nat × RState) :=
  match read_raw_bytes r 2 with
  | some (b, r2) => some (b.getD 0 0 + 256 * b.getD 1 0, r2)
  | Option.none => Option.none

/-- `Reader.read_long` (little-endian 32-bit). -/
def read_long (r : RState) : Option (Nat × RState) :=
  match read_raw_bytes r 4 with
  | some (b, r2) =>
    some (b.getD 0 0 + 256 * b.getD 1 0 + 65536 * b.getD 2 0 + 16777216 * b.getD 3 0, r2)
  | Option.none => Option.none

/-- `Reader.read_offsets`. -/
def read_offsets : RState → Nat → Option (List Nat × RState)
  | r, 0 => some ([], r)
  | r, n + 1 =>
    match read_long r with
    | some (v, r1) =>
      match read_offsets r1 n with
      | some (vs, r2) => some (v :: vs, r2)
      | Option.none => Option.none
    | Option.none => Option.none

/-- `Reader.read_bytes`, exactly as written in the source: it reads the
varint length `n`, reads and discards the `n` raw bytes, and returns
`n` — the length, not the bytes, despite its `-> bytes` annotation. -/
def read_bytes (r : RState) : Option (Nat × RState) :=
  match read_varint_r r with
  | some (n, r1) =>
    match read_raw_bytes r1 n with
    | some (_, r2) => some (n, r2)
    | Option.none => Option.none
  | Option.none => Option.none

/-- Modelled from the spec: the blob-record parse the Reader is specified
to perform — seek, read the varint length, and return the raw byte
content of the record (what `read_bytes` would return if its final line
returned `b` as annotated). -/
def read_bytes_spec (r : RState) : Option (List Nat × RState) :=
  match read_varint_r r with
  | some (n, r1) =>
    match read_raw_bytes r1 n with
    | some (bs, r2) => some (bs, r2)
    | Option.none => Option.none
  | Option.none => Option.none

/-- Parsed `PycFile` state after `load`: header fields, the four offset
tables, and the blob result cache (which, because of `read_bytes`,
stores the integer lengths the code actually produces). -/
structure Pyc where
  data : List Nat
  n_code : Nat
  code_offsets : List Nat
  const_offsets : List Nat
  string_offsets : List Nat
  blob_offsets : List Nat
  blobs : List (Option Nat)

/-- `PycFile.load`: parse the header (checking magic, version 0, zero
metadata offset and the total size) and the four offset tables, then
allocate the `None`-filled caches. -/
def Pyc.load (data : List Nat) : Option Pyc :=
  match read_raw_bytes ⟨data, 0⟩ 4 with
  | Option.none => Option.none
  | some (magic, r) =>
    if magic ≠ [46, 112, 121, 99] then Option.none
    else match read_short r with
    | Option.none => Option.none
    | some (version, r) =>
      if version ≠ 0 then Option.none
      else match read_short r with
      | Option.none => Option.none
      | some (n_code, r) =>
        match read_long r with
        | Option.none => Option.none
        | some (meta_start, r) =>
          if meta_start ≠ 0 then Option.none
          else match read_long r with
          | Option.none => Option.none
          | some (total_size, r) =>
            if total_size ≠ data.length then Option.none
            else match read_offsets r n_code with
            | Option.none => Option.none
            | some (code_offsets, r) =>
              match read_long r with
              | Option.none => Option.none
              | some (n_constants, r) =>
                match read_offsets r n_constants with
                | Option.none => Option.none
                | some (const_offsets, r) =>
                  match read_long r with
                  | Option.none => Option.none
                  | some (n_strings, r) =>
                    match read_offsets r n_strings with
                    | Option.none => Option.none
                    | some (string_offsets, r) =>
                      match read_long r with
                      | Option.none => Option.none
                      | some (n_blobs, r) =>
                        match read_offsets r n_blobs with
                        | Option.none => Option.none
                        | some (blob_offsets, _) =>
                          some { data := data, n_code := n_code,
                                 code_offsets := code_offsets,
                                 const_offsets := const_offsets,
                                 string_offsets := string_offsets,
                                 blob_offsets := blob_offsets,
                                 blobs := List.replicate n_blobs Option.none }

/-- `PycFile.get_bytes`: bound-check the blob index, consult the cache,
and on a miss run `read_bytes` at the recorded offset and cache what it
returns (the length, due to the `read_bytes` slip). -/
def Pyc.get_bytes (p : Pyc) (i : Nat) : Option (Nat × Pyc) :=
  if i < p.blobs.length then
    match p.blobs.getD i Option.none with
    | some v => some (v, p)
    | Option.none =>
      match read_bytes ⟨p.data, p.blob_offsets.getD i 0⟩ with
      | some (v, _) => some (v, { p with blobs := p.blobs.set i (some v) })
      | Option.none => Option.none
  else Option.none

/-! ## Stack simulation

`stackEffect` reads the per-opcode stack effect off an `(opcode, oparg)`
pair; it agrees with the literal effects the source passes to `emit`. -/

/-- Stack effect of one generated instruction. -/
def stackEffect (op arg : Nat) : Int :=
  if op = BUILD_TUPLE then 1 - (arg : Int)
  else if op = MAKE_COMPLEX then -1
  else if op = UNARY_NEGATIVE ∨ op = RETURN_CONSTANT then 0
  else 1

/-- Final stack depth after simulating `l` from depth `s`. -/
def runStack (l : List (Nat × Nat)) (s : Int) : Int :=
  l.foldl (fun a p => a + stackEffect p.1 p.2) s

/-- The stack simulator of the spec: every intermediate depth reached
while simulating `l` from depth `s` is nonnegative. -/
def simNonNeg : List (Nat × Nat) → Int → Bool
  | [], _ => true
  | p :: rest, s =>
    (decide (0 ≤ s + stackEffect p.1 p.2)) && simNonNeg rest (s + stackEffect p.1 p.2)

/-- Well-formedness of a finished constant-program at pool index `i`:
it is a body followed by the terminal `RETURN_CONSTANT i`, the body
simulates from 0 without going negative, and it ends at depth exactly 1
immediately before the terminal instruction. -/
def wfCC (cc : CC) (i : Nat) : Prop :=
  ∃ body, cc.instructions = body ++ [(RETURN_CONSTANT, i)]
    ∧ simNonNeg body 0 = true ∧ runStack body 0 = 1

/-- Builder extension: the constant pool only grows, existing entries are
untouched, and every newly added entry is a well-formed constant-program
at its own index. -/
def BExt (b b2 : Builder) : Prop :=
  b.constants.length ≤ b2.constants.length
  ∧ (∀ j, j < b.constants.length → b2.constants[j]? = b.constants[j]?)
  ∧ (∀ j cc, b.constants.length ≤ j → b2.constants[j]? = some cc → wfCC cc j)

theorem runStack_append (a c : List (Nat × Nat)) (s : Int) :
    runStack (a ++ c) s = runStack c (runStack a s) :=
  List.foldl_append _ _ _ _

theorem runStack_cons (p : Nat × Nat) (c : List (Nat × Nat)) (s : Int) :
    runStack (p :: c) s = runStack c (s + stackEffect p.1 p.2) := rfl

theorem runStack_nil (s : Int) : runStack [] s = s := rfl

theorem simNonNeg_append (a c : List (Nat × Nat)) (s : Int) :
    simNonNeg (a ++ c) s = (simNonNeg a s && simNonNeg c (runStack a s)) := by
  induction a generalizing s with
  | nil => simp [simNonNeg, runStack_nil]
  | cons p rest ih =>
    simp only [List.cons_append, simNonNeg, List.append_eq, ih, runStack_cons,
      Bool.and_assoc]

theorem BExt_refl (b : Builder) : BExt b b := by
  refine ⟨le_refl _, fun j _ => rfl, fun j cc hj hcc => ?_⟩
  have hlt : j < b.constants.length := by
    by_contra hc
    rw [List.getElem?_eq_none (Nat.le_of_not_lt hc)] at hcc
    exact Option.noConfusion hcc
  omega

theorem BExt_trans {b1 b2 b3 : Builder} (h12 : BExt b1 b2) (h23 : BExt b2 b3) :
    BExt b1 b3 := by
  obtain ⟨hl12, hf12, hw12⟩ := h12
  obtain ⟨hl23, hf23, hw23⟩ := h23
  refine ⟨le_trans hl12 hl23, ?_, ?_⟩
  · intro j hj
    rw [hf23 j (lt_of_lt_of_le hj hl12), hf12 j hj]
  · intro j cc hj hcc
    by_cases hmid : j < b2.constants.length
    · exact hw12 j cc hj (by rw [← hf23 j hmid]; exact hcc)
    · exact hw23 j cc (Nat.le_of_not_lt hmid) hcc

theorem BExt_of_constants_eq {b b2 : Builder} (h : b2.constants = b.constants) :
    BExt b b2 := by
  have := BExt_refl b
  rw [BExt, h]
  exact this

theorem poolFind_lt {α : Type} (eqf : α → α → Bool) (t : α) :
    ∀ (l : List α) (i : Nat), poolFind eqf t l = some i → i < l.length := by
  intro l
  induction l with
  | nil => intro i h; exact Option.noConfusion h
  | cons x xs ih =>
    intro i h
    simp only [poolFind] at h
    by_cases hx : eqf x t
    · rw [if_pos hx] at h
      cases h
      simp
    · rw [if_neg hx] at h
      cases hfind : poolFind eqf t xs with
      | none => rw [hfind] at h; exact Option.noConfusion h
      | some k =>
        rw [hfind, Option.map_some'] at h
        cases h
        have := ih k hfind
        simp
        omega

theorem add_blob_constants {b b2 : Builder} {bl : Blob} {j : Nat}
    (h : b.add_blob bl = some (b2, j)) : b2.constants = b.constants := by
  unfold Builder.add_blob at h
  cases hp : poolAdd blobEq b.locked b.blobs bl with
  | none => rw [hp] at h; exact Option.noConfusion h
  | some pi => rw [hp] at h; cases h; rfl

theorem add_string_constants {b b2 : Builder} {s : String} {j : Nat}
    (h : b.add_string s = some (b2, j)) : b2.constants = b.constants := by
  unfold Builder.add_string at h
  cases hp : poolAdd (fun a c => a == c) b.locked b.strings s with
  | none => rw [hp] at h; exact Option.noConfusion h
  | some pi => rw [hp] at h; cases h; rfl

/-! ## The central invariant of the constant compiler -/

theorem stackEffect_LCC (a : Nat) : stackEffect LOAD_COMMON_CONSTANT a = 1 := rfl
theorem stackEffect_MI (a : Nat) : stackEffect MAKE_INT a = 1 := rfl
theorem stackEffect_UN (a : Nat) : stackEffect UNARY_NEGATIVE a = 0 := rfl
theorem stackEffect_ML (a : Nat) : stackEffect MAKE_LONG a = 1 := rfl
theorem stackEffect_MF (a : Nat) : stackEffect MAKE_FLOAT a = 1 := rfl
theorem stackEffect_MC (a : Nat) : stackEffect MAKE_COMPLEX a = -1 := rfl
theorem stackEffect_MB (a : Nat) : stackEffect MAKE_BYTES a = 1 := rfl
theorem stackEffect_MS (a : Nat) : stackEffect MAKE_STRING a = 1 := rfl
theorem stackEffect_LLC (a : Nat) : stackEffect LAZY_LOAD_CONSTANT a = 1 := rfl
theorem stackEffect_BT (a : Nat) : stackEffect BUILD_TUPLE a = 1 - (a : Int) := rfl
theorem stackEffect_RC (a : Nat) : stackEffect RETURN_CONSTANT a = 0 := rfl

/-- Induction statement for `addConstant`. -/
def AddSpec (fuel : Nat) : Prop :=
  ∀ b v b2 i, addConstant fuel b v = some (b2, i) →
    BExt b b2 ∧ i < b2.constants.length

/-- Induction statement for `setIndex`. -/
def SetSpec (fuel : Nat) : Prop :=
  ∀ b v idx b2 cc, setIndex fuel b v idx = some (b2, cc) →
    BExt b b2 ∧ wfCC cc idx

/-- Induction statement for `generate`: it appends a block of
instructions with total stack effect +1 that, from any nonnegative
start depth, never drives the simulated stack negative. -/
def GenSpec (fuel : Nat) : Prop :=
  ∀ b cc v b2 cc2, generate fuel b cc v = some (b2, cc2) →
    BExt b b2 ∧ ∃ d, cc2.instructions = cc.instructions ++ d
      ∧ (∀ s : Int, 0 ≤ s → simNonNeg d s = true)
      ∧ (∀ s : Int, runStack d s = s + 1)

/-- Induction statement for `genItems`: one +1 block per element. -/
def ItemsSpec (fuel : Nat) : Prop :=
  ∀ b cc vs b2 cc2, genItems fuel b cc vs = some (b2, cc2) →
    BExt b b2 ∧ ∃ d, cc2.instructions = cc.instructions ++ d
      ∧ (∀ s : Int, 0 ≤ s → simNonNeg d s = true)
      ∧ (∀ s : Int, runStack d s = s + (vs.length : Int))

theorem mainInv : ∀ fuel, AddSpec fuel ∧ SetSpec fuel ∧ GenSpec fuel ∧ ItemsSpec fuel := by
  intro fuel
  induction fuel with
  | zero =>
    refine ⟨?_, ?_, ?_, ?_⟩
    · intro b v b2 i h; exact Option.noConfusion h
    · intro b v idx b2 cc h; exact Option.noConfusion h
    · intro b cc v b2 cc2 h; exact Option.noConfusion h
    · intro b cc vs b2 cc2 h; exact Option.noConfusion h
  | succ fuel ih =>
    obtain ⟨ihAdd, ihSet, ihGen, ihItems⟩ := ih
    have hAdd : AddSpec (fuel + 1) := by
      intro b v b2 i h
      simp only [addConstant] at h
      split at h
      · -- dedup hit at index k
        rename_i k hf
        split at h
        · rename_i b3 cc3 hs
          simp only [Option.some.injEq, Prod.mk.injEq] at h
          obtain ⟨rfl, rfl⟩ := h
          have hset := ihSet b v k b3 cc3 hs
          exact ⟨hset.1, lt_of_lt_of_le (poolFind_lt _ _ _ _ hf) hset.1.1⟩
        · exact Option.noConfusion h
      · -- fresh entry
        rename_i hf
        split at h
        · exact Option.noConfusion h
        · rename_i hl
          split at h
          · rename_i b3 cc3 hs
            simp only [Option.some.injEq, Prod.mk.injEq] at h
            obtain ⟨rfl, rfl⟩ := h
            have hset := ihSet _ v b.constants.length b3 cc3 hs
            obtain ⟨⟨hlen, hframe, hwf⟩, hwfcc⟩ := hset
            simp only [List.length_append, List.length_cons, List.length_nil] at hlen
            constructor
            · refine ⟨?_, ?_, ?_⟩
              · simp only [List.length_set]; omega
              · intro j hj
                rw [List.getElem?_set_ne (by omega)]
                rw [hframe j (by simp; omega)]
                simp only [List.getElem?_append]
                rw [if_pos hj]
              · intro j cc hj hcc
                by_cases hje : j = b.constants.length
                · subst hje
                  rw [List.getElem?_set_eq_of_lt cc3 (by omega)] at hcc
                  cases hcc
                  exact hwfcc
                · rw [List.getElem?_set_ne (by omega)] at hcc
                  exact hwf j cc (by simp; omega) hcc
            · simp only [List.length_set]; omega
          · exact Option.noConfusion h
    have hSet : SetSpec (fuel + 1) := by
      intro b v idx b2 cc h
      simp only [setIndex] at h
      split at h
      · rename_i b3 ccg hg
        simp only [Option.some.injEq, Prod.mk.injEq] at h
        obtain ⟨rfl, rfl⟩ := h
        obtain ⟨hext, d, hinstr, hsim, hrun⟩ := ihGen _ _ v b3 ccg hg
        refine ⟨hext, d, ?_, hsim 0 le_rfl, by have := hrun 0; omega⟩
        simp only [CC.emit, hinstr]
        simp [freshCC]
      · exact Option.noConfusion h
    have hGen : GenSpec (fuel + 1) := by
      intro b cc v b2 cc2 h
      cases v with
      | pynone =>
        simp only [generate, Option.some.injEq, Prod.mk.injEq] at h
        obtain ⟨rfl, rfl⟩ := h
        refine ⟨BExt_refl b, [(LOAD_COMMON_CONSTANT, 0)], by simp [CC.emit], ?_, ?_⟩
        · intro s hs
          simp [simNonNeg, stackEffect_LCC]
          omega
        · intro s
          simp [runStack_cons, runStack_nil, stackEffect_LCC]
      | bool x =>
        simp only [generate, Option.some.injEq, Prod.mk.injEq] at h
        obtain ⟨rfl, rfl⟩ := h
        refine ⟨BExt_refl b, [(LOAD_COMMON_CONSTANT, if x then 2 else 1)],
          by simp [CC.emit], ?_, ?_⟩
        · intro s hs
          simp [simNonNeg, stackEffect_LCC]
          omega
        · intro s
          simp [runStack_cons, runStack_nil, stackEffect_LCC]
      | int i =>
        simp only [generate] at h
        split at h
        · simp only [Option.some.injEq, Prod.mk.injEq] at h
          obtain ⟨rfl, rfl⟩ := h
          refine ⟨BExt_refl b, [(MAKE_INT, i.toNat)], by simp [CC.emit], ?_, ?_⟩
          · intro s hs
            simp [simNonNeg, stackEffect_MI]
            omega
          · intro s
            simp [runStack_cons, runStack_nil, stackEffect_MI]
        · split at h
          · simp only [Option.some.injEq, Prod.mk.injEq] at h
            obtain ⟨rfl, rfl⟩ := h
            refine ⟨BExt_refl b, [(MAKE_INT, (-i).toNat), (UNARY_NEGATIVE, 0)],
              by simp [CC.emit], ?_, ?_⟩
            · intro s hs
              simp [simNonNeg, stackEffect_MI, stackEffect_UN]
              omega
            · intro s
              simp [runStack_cons, runStack_nil, stackEffect_MI, stackEffect_UN]
          · split at h
            · rename_i b3 j ha
              simp only [Option.some.injEq, Prod.mk.injEq] at h
              obtain ⟨rfl, rfl⟩ := h
              refine ⟨BExt_of_constants_eq (add_blob_constants ha), [(MAKE_LONG, j)],
                by simp [CC.emit], ?_, ?_⟩
              · intro s hs
                simp [simNonNeg, stackEffect_ML]
                omega
              · intro s
                simp [runStack_cons, runStack_nil, stackEffect_ML]
            · exact Option.noConfusion h
      | float x =>
        simp only [generate] at h
        split at h
        · rename_i b3 j ha
          simp only [Option.some.injEq, Prod.mk.injEq] at h
          obtain ⟨rfl, rfl⟩ := h
          refine ⟨BExt_of_constants_eq (add_blob_constants ha), [(MAKE_FLOAT, j)],
            by simp [CC.emit], ?_, ?_⟩
          · intro s hs
            simp [simNonNeg, stackEffect_MF]
            omega
          · intro s
            simp [runStack_cons, runStack_nil, stackEffect_MF]
        · exact Option.noConfusion h
      | complex re im =>
        simp only [generate] at h
        split at h
        · rename_i b3 j1 ha1
          split at h
          · rename_i b4 j2 ha2
            simp only [Option.some.injEq, Prod.mk.injEq] at h
            obtain ⟨rfl, rfl⟩ := h
            refine ⟨BExt_trans (BExt_of_constants_eq (add_blob_constants ha1))
              (BExt_of_constants_eq (add_blob_constants ha2)),
              [(MAKE_FLOAT, j1), (MAKE_FLOAT, j2), (MAKE_COMPLEX, 0)],
              by simp [CC.emit], ?_, ?_⟩
            · intro s hs
              simp [simNonNeg, stackEffect_MF, stackEffect_MC]
              omega
            · intro s
              simp only [runStack_cons, runStack_nil, stackEffect_MF, stackEffect_MC]
              omega
          · exact Option.noConfusion h
        · exact Option.noConfusion h
      | bytes bs =>
        simp only [generate] at h
        split at h
        · rename_i b3 j ha
          simp only [Option.some.injEq, Prod.mk.injEq] at h
          obtain ⟨rfl, rfl⟩ := h
          refine ⟨BExt_of_constants_eq (add_blob_constants ha), [(MAKE_BYTES, j)],
            by simp [CC.emit], ?_, ?_⟩
          · intro s hs
            simp [simNonNeg, stackEffect_MB]
            omega
          · intro s
            simp [runStack_cons, runStack_nil, stackEffect_MB]
        · exact Option.noConfusion h
      | str s0 =>
        simp only [generate] at h
        split at h
        · rename_i b3 j ha
          simp only [Option.some.injEq, Prod.mk.injEq] at h
          obtain ⟨rfl, rfl⟩ := h
          refine ⟨BExt_of_constants_eq (add_string_constants ha), [(MAKE_STRING, j)],
            by simp [CC.emit], ?_, ?_⟩
          · intro s hs
            simp [simNonNeg, stackEffect_MS]
            omega
          · intro s
            simp [runStack_cons, runStack_nil, stackEffect_MS]
        · exact Option.noConfusion h
      | tuple items =>
        simp only [generate] at h
        split at h
        · rename_i b3 cc3 hgi
          simp only [Option.some.injEq, Prod.mk.injEq] at h
          obtain ⟨rfl, rfl⟩ := h
          obtain ⟨hext, d, hinstr, hsim, hrun⟩ := ihItems b cc items b3 cc3 hgi
          refine ⟨hext, d ++ [(BUILD_TUPLE, items.length)], ?_, ?_, ?_⟩
          · simp [CC.emit, hinstr]
          · intro s hs
            rw [simNonNeg_append, hsim s hs, hrun s]
            simp [simNonNeg, stackEffect_BT]
            omega
          · intro s
            rw [runStack_append, hrun s]
            simp only [runStack_cons, runStack_nil, stackEffect_BT]
            omega
        · exact Option.noConfusion h
    have hItems : ItemsSpec (fuel + 1) := by
      intro b cc vs b2 cc2 h
      cases vs with
      | nil =>
        simp only [genItems, Option.some.injEq, Prod.mk.injEq] at h
        obtain ⟨rfl, rfl⟩ := h
        exact ⟨BExt_refl b, [], by simp, fun s hs => rfl, fun s => by simp [runStack_nil]⟩
      | cons x xs =>
        simp only [genItems] at h
        split at h
        · rename_i b3 j ha
          obtain ⟨hext3, hlt⟩ := ihAdd b x b3 j ha
          obtain ⟨hext2, d, hinstr, hsim, hrun⟩ := ihItems b3 _ xs b2 cc2 h
          refine ⟨BExt_trans hext3 hext2, (LAZY_LOAD_CONSTANT, j) :: d, ?_, ?_, ?_⟩
          · rw [hinstr]
            simp [CC.emit]
          · intro s hs
            simp only [simNonNeg, stackEffect_LLC]
            rw [hsim (s + 1) (by omega)]
            simp
            omega
          · intro s
            rw [runStack_cons, stackEffect_LLC, hrun (s + 1)]
            simp
            omega
        · exact Option.noConfusion h
    exact ⟨hAdd, hSet, hGen, hItems⟩

theorem buildAll_ext (fuel : Nat) :
    ∀ (vs : List Value) (b b2 : Builder),
      vs.foldlM (fun b v => (addConstant fuel b v).map Prod.fst) b = some b2 →
      BExt b b2 := by
  intro vs
  induction vs with
  | nil =>
    intro b b2 h
    simp only [List.foldlM_nil, pure, Option.some.injEq] at h
    subst h
    exact BExt_refl b
  | cons v vs ih =>
    intro b b2 h
    simp only [List.foldlM_cons] at h
    cases ha : addConstant fuel b v with
    | none => rw [ha] at h; exact Option.noConfusion h
    | some p =>
      rw [ha] at h
      simp only [Option.map_some', Option.bind_eq_bind, Option.some_bind] at h
      exact BExt_trans ((mainInv fuel).1 b v p.1 p.2 (by rw [ha])).1 (ih p.1 b2 h)

theorem buildAll_wf (fuel : Nat) (vs : List Value) (b2 : Builder)
    (h : buildAll fuel vs = some b2) :
    ∀ j cc, b2.constants[j]? = some cc → wfCC cc j := by
  intro j cc hj
  exact (buildAll_ext fuel vs emptyBuilder b2 h).2.2 j cc (Nat.zero_le j) hj

/-- C4: for every constant-program produced by a successful build (over
any list of supported values, hence for every value in the supported
domain), simulating the stack effects of its instruction sequence from
depth 0 never goes negative, and the depth is exactly 1 immediately
before the terminal `RETURN_CONSTANT` instruction. -/
theorem constant_program_stack_accounting (fuel : Nat) (vs : List Value)
    (b2 : Builder) (h : buildAll fuel vs = some b2) (j : Nat) (cc : CC)
    (hj : b2.constants[j]? = some cc) :
    simNonNeg cc.instructions 0 = true
    ∧ ∃ body, cc.instructions = body ++ [(RETURN_CONSTANT, j)]
        ∧ runStack body 0 = 1 := by
  obtain ⟨body, hb, hsim, hrun⟩ := buildAll_wf fuel vs b2 h j cc hj
  refine ⟨?_, body, hb, hrun⟩
  rw [hb, simNonNeg_append, hsim, hrun]
  simp [simNonNeg, stackEffect_RC]

/-- Witness: the build of the single value `5` yields the one-entry
constant pool whose program satisfies the stack-accounting property. -/
theorem constant_program_stack_accounting_witness :
    simNonNeg [(MAKE_INT, 5), (RETURN_CONSTANT, 0)] 0 = true
    ∧ ∃ body, [(MAKE_INT, 5), (RETURN_CONSTANT, 0)] = body ++ [(RETURN_CONSTANT, 0)]
        ∧ runStack body 0 = 1 :=
  constant_program_stack_accounting 10 [Value.int 5]
    ⟨[], [], [⟨Value.int 5, [(MAKE_INT, 5), (RETURN_CONSTANT, 0)], 1, 1, 0⟩], false⟩
    rfl 0 ⟨Value.int 5, [(MAKE_INT, 5), (RETURN_CONSTANT, 0)], 1, 1, 0⟩ rfl

/-- C7: every constant-program produced by a successful build terminates
in a `RETURN_CONSTANT` instruction whose operand is the program's own
index in the constant pool. -/
theorem return_constant_self_index (fuel : Nat) (vs : List Value)
    (b2 : Builder) (h : buildAll fuel vs = some b2) (j : Nat) (cc : CC)
    (hj : b2.constants[j]? = some cc) :
    cc.instructions.getLast? = some (RETURN_CONSTANT, j) := by
  obtain ⟨body, hb, _, _⟩ := buildAll_wf fuel vs b2 h j cc hj
  rw [hb]
  exact List.getLast?_concat _

/-- Witness: in the two-entry build of `(5,)`, both the outer tuple
program (index 0) and the element program (index 1) return their own
index. -/
theorem return_constant_self_index_witness :
    ([(LAZY_LOAD_CONSTANT, 1), (BUILD_TUPLE, 1), (RETURN_CONSTANT, 0)] :
        List (Nat × Nat)).getLast? = some (RETURN_CONSTANT, 0) :=
  return_constant_self_index 10 [Value.tuple [Value.int 5]]
    ⟨[], [],
      [⟨Value.tuple [Value.int 5],
        [(LAZY_LOAD_CONSTANT, 1), (BUILD_TUPLE, 1), (RETURN_CONSTANT, 0)], 1, 1, 0⟩,
       ⟨Value.int 5, [(MAKE_INT, 5), (RETURN_CONSTANT, 1)], 1, 1, 1⟩], false⟩
    rfl 0
    ⟨Value.tuple [Value.int 5],
      [(LAZY_LOAD_CONSTANT, 1), (BUILD_TUPLE, 1), (RETURN_CONSTANT, 0)], 1, 1, 0⟩ rfl

/-! ## The varint law -/

theorem lor_low (a c s : Nat) (h : a < 2 ^ s) : a ||| (c <<< s) = a + c * 2 ^ s := by
  apply Nat.eq_of_testBit_eq
  intro j
  rw [Nat.testBit_lor, Nat.testBit_shiftLeft,
    show a + c * 2 ^ s = 2 ^ s * c + a by ring,
    Nat.testBit_mul_pow_two_add c h j]
  by_cases hj : j < s
  · have : ¬ (j ≥ s) := by omega
    simp [hj, this]
  · have ha : a.testBit j = false :=
      Nat.testBit_lt_two_pow
        (lt_of_lt_of_le h (Nat.pow_le_pow_right (by norm_num) (by omega)))
    have : j ≥ s := by omega
    simp [hj, this, ha]

theorem and_127 (n : Nat) : n &&& 127 = n % 128 := by
  have := Nat.and_pow_two_sub_one_eq_mod n 7
  simpa using this

theorem and_128_low (n : Nat) (h : n < 128) : n &&& 128 = 0 := by
  have := Nat.and_two_pow n 7
  rw [Nat.testBit_lt_two_pow h] at this
  simpa using this

theorem and_128_high (x : Nat) (h : x < 128) : (x + 128) &&& 128 = 128 := by
  have ht : (x + 128).testBit 7 = true := by
    rw [show x + 128 = 2 ^ 7 * 1 + x by omega, Nat.testBit_mul_pow_two_add 1 h 7]
    simp
  have := Nat.and_two_pow (x + 128) 7
  rw [ht] at this
  simpa using this

theorem encVarAux_zero (fuel : Nat) : encVarAux fuel 0 = [] := by
  cases fuel <;> rfl

theorem encVarAux_succ (fuel i : Nat) (h : i ≠ 0) :
    encVarAux (fuel + 1) i
      = (if i / 128 = 0 then i % 128 else i % 128 + 128) :: encVarAux fuel (i / 128) := by
  cases i with
  | zero => omega
  | succ k => rfl

theorem decode_encVarAux :
    ∀ (fuel i : Nat), 0 < i → i ≤ fuel →
      ∀ (shift acc : Nat), acc < 2 ^ shift →
        ∀ (extra : List Nat),
          decodeVarintAux (encVarAux fuel i ++ extra) shift acc
            = some (acc + i * 2 ^ shift, (encVarAux fuel i).length) := by
  intro fuel
  induction fuel with
  | zero => intro i h1 h2; omega
  | succ fuel ih =>
    intro i h1 h2 shift acc hacc extra
    rw [encVarAux_succ fuel i (by omega)]
    by_cases hd : i / 128 = 0
    · have hlt : i < 128 := by
        by_contra hc
        have : 1 ≤ i / 128 := Nat.one_le_div_iff (by norm_num) |>.mpr (by omega)
        omega
      rw [if_pos hd, hd, encVarAux_zero]
      simp only [List.nil_append, List.cons_append, decodeVarintAux]
      rw [if_pos (by rw [Nat.mod_eq_of_lt hlt]; exact and_128_low i hlt)]
      rw [and_127, Nat.mod_eq_of_lt hlt, Nat.mod_eq_of_lt hlt,
        lor_low acc i shift hacc]
      simp
    · have hge : 128 ≤ i := by
        by_contra hc
        exact hd (Nat.div_eq_of_lt (by omega))
      have hmlt : i % 128 < 128 := Nat.mod_lt _ (by norm_num)
      rw [if_neg hd]
      simp only [List.cons_append, decodeVarintAux]
      rw [if_neg (by rw [and_128_high (i % 128) hmlt]; omega)]
      rw [and_127, Nat.add_mod_right, Nat.mod_mod_of_dvd _ (by norm_num),
        lor_low acc (i % 128) shift hacc]
      have hd1 : 0 < i / 128 := by omega
      have hd2 : i / 128 ≤ fuel := by
        have := Nat.div_lt_self h1 (show 1 < 128 by norm_num)
        omega
      have hacc2 : acc + i % 128 * 2 ^ shift < 2 ^ (shift + 7) := by
        have h7 : (2 : Nat) ^ (shift + 7) = 2 ^ shift * 128 := by
          rw [pow_add]; norm_num
        calc acc + i % 128 * 2 ^ shift
            < 2 ^ shift + i % 128 * 2 ^ shift := by omega
          _ = (i % 128 + 1) * 2 ^ shift := by ring
          _ ≤ 128 * 2 ^ shift := Nat.mul_le_mul_right _ (by omega)
          _ = 2 ^ (shift + 7) := by rw [h7]; ring
      simp only [List.append_eq]
      rw [ih (i / 128) hd1 hd2 (shift + 7) (acc + i % 128 * 2 ^ shift) hacc2 extra]
      have hval : acc + i % 128 * 2 ^ shift + i / 128 * 2 ^ (shift + 7)
          = acc + i * 2 ^ shift := by
        have h7 : (2 : Nat) ^ (shift + 7) = 2 ^ shift * 128 := by
          rw [pow_add]; norm_num
        rw [h7]
        have : i % 128 * 2 ^ shift + i / 128 * (2 ^ shift * 128) = i * 2 ^ shift := by
          conv_rhs => rw [← Nat.div_add_mod i 128]
          ring
        omega
      rw [hval]
      simp

/-- C5: for every integer i that is at least 0, encoding succeeds and
decoding the encoded bytes recovers exactly i after consuming the whole
encoding; and the encoding of 0 is exactly one zero byte. -/
theorem varint_roundtrip (i : Nat) :
    (∃ l, encode_varint (i : Int) = some l ∧ decode_varint l = some (i, l.length))
    ∧ encode_varint 0 = some [0] := by
  refine ⟨?_, rfl⟩
  by_cases h0 : i = 0
  · subst h0
    exact ⟨[0], rfl, rfl⟩
  · refine ⟨encVarAux i i, ?_, ?_⟩
    · unfold encode_varint
      rw [if_neg (by exact_mod_cast h0), if_pos (by exact_mod_cast Nat.pos_of_ne_zero h0)]
      simp
    · have := decode_encVarAux i i (Nat.pos_of_ne_zero h0) le_rfl 0 0 (by norm_num) []
      simpa [decode_varint] using this

/-! ## Operand widening -/

/-- Value of a little-endian list of base-256 digits. -/
def leVal : List Nat → Nat
  | [] => 0
  | d :: rest => d + 256 * leVal rest

theorem byteGroupsAux_zero (fuel : Nat) : byteGroupsAux fuel 0 = [] := by
  cases fuel <;> rfl

theorem byteGroupsAux_succ (fuel n : Nat) (h : n ≠ 0) :
    byteGroupsAux (fuel + 1) n = n % 256 :: byteGroupsAux fuel (n / 256) := by
  cases n with
  | zero => omega
  | succ k => rfl

theorem byteGroupsAux_spec :
    ∀ fuel n, 0 < n → n ≤ fuel →
      leVal (byteGroupsAux fuel n) = n
      ∧ byteGroupsAux fuel n ≠ []
      ∧ (∀ g ∈ byteGroupsAux fuel n, g < 256)
      ∧ (256 ≤ n → 2 ≤ (byteGroupsAux fuel n).length) := by
  intro fuel
  induction fuel with
  | zero => intro n h1 h2; omega
  | succ fuel ih =>
    intro n h1 h2
    rw [byteGroupsAux_succ fuel n (by omega)]
    by_cases hd : n / 256 = 0
    · have hn : n < 256 := by
        by_contra hc
        have : 1 ≤ n / 256 := Nat.one_le_div_iff (by norm_num) |>.mpr (by omega)
        omega
      rw [hd, byteGroupsAux_zero]
      refine ⟨?_, by simp, ?_, ?_⟩
      · simp [leVal]; omega
      · intro g hg
        simp only [List.mem_singleton] at hg
        subst hg
        exact Nat.mod_lt _ (by norm_num)
      · intro hc; omega
    · have hdiv : n / 256 < n := Nat.div_lt_self h1 (by norm_num)
      obtain ⟨hv, hne, hmem, _⟩ := ih (n / 256) (by omega) (by omega)
      refine ⟨?_, by simp, ?_, ?_⟩
      · simp only [leVal, hv]
        have := Nat.div_add_mod n 256
        omega
      · intro g hg
        rcases List.mem_cons.mp hg with hg | hg
        · subst hg; exact Nat.mod_lt _ (by norm_num)
        · exact hmem g hg
      · intro _
        have : 0 < (byteGroupsAux fuel (n / 256)).length := List.length_pos.mpr hne
        simp only [List.length_cons]
        omega

theorem foldl_be (l : List Nat) :
    ∀ acc, l.reverse.foldl (fun a g => a * 256 + g) acc
      = acc * 256 ^ l.length + leVal l := by
  induction l with
  | nil => intro acc; simp [leVal]
  | cons d rest ih =>
    intro acc
    simp only [List.reverse_cons, List.foldl_append, List.foldl_cons, List.foldl_nil, ih]
    simp only [leVal, List.length_cons, pow_succ]
    ring

/-- C8: in the serialized form of an instruction whose operand is at
least 256, the bytes are one `(EXTENDED_ARG, group)` pair per high-order
8-bit group (most significant first, hence at least one such pair),
followed by the real opcode carrying the lowest 8-bit group; every group
is a byte, and recombining the groups most-significant-first reproduces
the original operand. -/
theorem extended_arg_encoding (op arg : Nat) (h : 256 ≤ arg) :
    ∃ groups : List Nat,
      instrToBytes op arg
        = (groups.dropLast.map (fun g => [EXTENDED_ARG, g])).flatten
          ++ [op, groups.getLastD 0]
      ∧ 2 ≤ groups.length
      ∧ (∀ g ∈ groups, g < 256)
      ∧ groups.foldl (fun a g => a * 256 + g) 0 = arg := by
  obtain ⟨hval, hne, hmem, hlen⟩ := byteGroupsAux_spec arg arg (by omega) le_rfl
  refine ⟨(byteGroupsAux arg arg).reverse, ?_, ?_, ?_, ?_⟩
  · unfold instrToBytes
    rw [if_pos h]
  · rw [List.length_reverse]
    exact hlen h
  · intro g hg
    rw [List.mem_reverse] at hg
    exact hmem g hg
  · rw [foldl_be]
    simp [hval]

/-- Witness for the operand-widening law at the concrete operand 777. -/
theorem extended_arg_encoding_witness :
    ∃ groups : List Nat,
      instrToBytes LAZY_LOAD_CONSTANT 777
        = (groups.dropLast.map (fun g => [EXTENDED_ARG, g])).flatten
          ++ [LAZY_LOAD_CONSTANT, groups.getLastD 0]
      ∧ 2 ≤ groups.length
      ∧ (∀ g ∈ groups, g < 256)
      ∧ groups.foldl (fun a g => a * 256 + g) 0 = 777 :=
  extended_arg_encoding LAZY_LOAD_CONSTANT 777 (by norm_num)

/-! ## Interning and sealing -/

theorem poolFind_append_of_none {α : Type} (eqf : α → α → Bool) (t x : α) :
    ∀ (l : List α), poolFind eqf t l = Option.none →
      poolFind eqf t (l ++ [x])
        = if eqf x t then some l.length else Option.none := by
  intro l
  induction l with
  | nil =>
    intro _
    simp only [List.nil_append, poolFind, List.length_nil]
    by_cases hx : eqf x t
    · rw [if_pos hx, if_pos hx]
    · rw [if_neg hx, if_neg hx]
      rfl
  | cons y ys ih =>
    intro h
    simp only [poolFind] at h
    by_cases hy : eqf y t
    · rw [if_pos hy] at h
      exact Option.noConfusion h
    · rw [if_neg hy] at h
      have hys : poolFind eqf t ys = Option.none := by
        cases hfind : poolFind eqf t ys with
        | none => rfl
        | some k => rw [hfind] at h; exact Option.noConfusion h
      simp only [List.cons_append, poolFind, if_neg hy, List.append_eq, ih hys,
        List.length_cons]
      by_cases hx : eqf x t
      · simp [hx]
      · simp [hx]

/-- Interning a whole list of values in order, recording the indices. -/
def poolAddAll {α : Type} (eqf : α → α → Bool) : List α → List α → Option (List α × List Nat)
  | pool, [] => some (pool, [])
  | pool, v :: vs =>
    match poolAdd eqf false pool v with
    | some (pool2, i) =>
      match poolAddAll eqf pool2 vs with
      | some (pool3, idxs) => some (pool3, i :: idxs)
      | Option.none => Option.none
    | Option.none => Option.none

/-- C2 (amended): interning with `Builder.add` is deterministic — adding
a value again right after a successful add returns the same index and
leaves the pool unchanged, and interning a sequence of fresh, pairwise
non-equal values yields exactly the strictly increasing indices
`pool.length, pool.length+1, …` in first-seen order.  The equality is
the pool's own matching predicate (wrapper type plus Python `==`), under
which the constant pool identifies numerically equal values of
different types. -/
theorem pool_intern_determinism {α : Type} (eqf : α → α → Bool) :
    (∀ (pool pool2 : List α) (t : α) (i : Nat), eqf t t = true →
        poolAdd eqf false pool t = some (pool2, i) →
        poolAdd eqf false pool2 t = some (pool2, i))
    ∧ (∀ (pool : List α) (vs : List α),
        (∀ v ∈ vs, poolFind eqf v pool = Option.none) →
        List.Pairwise (fun a c => eqf a c = false) vs →
        poolAddAll eqf pool vs
          = some (pool ++ vs, List.range' pool.length vs.length)) := by
  constructor
  · intro pool pool2 t i hrefl h
    unfold poolAdd at h ⊢
    cases hf : poolFind eqf t pool with
    | some j =>
      rw [hf] at h
      simp only [Option.some.injEq, Prod.mk.injEq] at h
      obtain ⟨rfl, rfl⟩ := h
      rw [hf]
    | none =>
      rw [hf] at h
      simp only [if_neg (by simp : ¬ (false = true)), Option.some.injEq,
        Prod.mk.injEq] at h
      obtain ⟨rfl, rfl⟩ := h
      rw [poolFind_append_of_none eqf t t pool hf, if_pos hrefl]
  · intro pool vs
    induction vs generalizing pool with
    | nil =>
      intro _ _
      simp [poolAddAll, List.range']
    | cons v vs ih =>
      intro hfresh hpw
      have hv : poolFind eqf v pool = Option.none := hfresh v (List.mem_cons_self v vs)
      have hstep : poolAdd eqf false pool v = some (pool ++ [v], pool.length) := by
        unfold poolAdd
        rw [hv]
        rfl
      simp only [poolAddAll, hstep]
      rw [ih (pool ++ [v]) ?_ (List.Pairwise.sublist (List.sublist_cons_self v vs) hpw)]
      · simp only [List.length_append, List.length_cons, List.length_nil]
        rw [List.append_cons pool v vs]
        rfl
      · intro w hw
        rw [poolFind_append_of_none eqf w v pool (hfresh w (List.mem_cons_of_mem v hw))]
        rw [if_neg]
        rw [List.pairwise_cons] at hpw
        simp [hpw.1 w hw]

/-- Witness: interning determinism at a concrete string pool. -/
theorem pool_intern_determinism_witness :
    poolAdd (fun a c : String => a == c) false ["a"] "a" = some (["a"], 0)
    ∧ poolAddAll (fun a c : String => a == c) [] ["a", "b"]
        = some (["a", "b"], [0, 1]) := by
  constructor
  · exact (pool_intern_determinism (fun a c : String => a == c)).1 [] ["a"] "a" 0 rfl rfl
  · have h := (pool_intern_determinism (fun a c : String => a == c)).2 [] ["a", "b"]
      (by intro v _; rfl)
      (by
        refine List.Pairwise.cons ?_ (List.Pairwise.cons (by intro c hc; cases hc) List.Pairwise.nil)
        intro c hc
        rw [List.mem_singleton] at hc
        subst hc
        rfl)
    simpa using h

/-- C2 counterexample: `0` and `False` are distinct values (different
type and content), yet interning `False` after `0` in the constant pool
returns the index of `0` and leaves the pool unchanged — `Builder.add`
compares constants with Python `==`, which identifies them. -/
theorem intern_type_blind_counterexample :
    addConstant 10 emptyBuilder (Value.int 0)
      = some (⟨[], [],
          [⟨Value.int 0, [(MAKE_INT, 0), (RETURN_CONSTANT, 0)], 1, 1, 0⟩], false⟩, 0)
    ∧ addConstant 10
        ⟨[], [], [⟨Value.int 0, [(MAKE_INT, 0), (RETURN_CONSTANT, 0)], 1, 1, 0⟩], false⟩
        (Value.bool false)
      = some (⟨[], [],
          [⟨Value.int 0, [(MAKE_INT, 0), (RETURN_CONSTANT, 0)], 1, 1, 0⟩], false⟩, 0)
    ∧ Value.int 0 ≠ Value.bool false :=
  ⟨rfl, rfl, fun h => Value.noConfusion h⟩

/-- C6: after `lock` (seal), interning a value with no match in the pool
fails, while interning a value already present still succeeds, returns
the index of its first (original) occurrence, and leaves the builder
unchanged; stated generically for `Builder.add` on any pool and
instantiated on the sealed string pool. -/
theorem seal_discipline (b : Builder) (s : String) :
    ((Builder.lock b).locked = true)
    ∧ (∀ {α : Type} (eqf : α → α → Bool) (pool : List α) (t : α),
        poolFind eqf t pool = Option.none →
        poolAdd eqf true pool t = Option.none)
    ∧ (∀ {α : Type} (eqf : α → α → Bool) (pool : List α) (t : α) (i : Nat),
        poolFind eqf t pool = some i →
        poolAdd eqf true pool t = some (pool, i))
    ∧ (poolFind (fun a c => a == c) s b.strings = Option.none →
        (Builder.lock b).add_string s = Option.none)
    ∧ (∀ i, poolFind (fun a c => a == c) s b.strings = some i →
        (Builder.lock b).add_string s = some (Builder.lock b, i)) := by
  refine ⟨rfl, ?_, ?_, ?_, ?_⟩
  · intro α eqf pool t h
    unfold poolAdd
    rw [h]
    rfl
  · intro α eqf pool t i h
    unfold poolAdd
    rw [h]
  · intro h
    unfold Builder.add_string poolAdd
    rw [show (Builder.lock b).strings = b.strings from rfl, h]
    rfl
  · intro i h
    unfold Builder.add_string poolAdd
    rw [show (Builder.lock b).strings = b.strings from rfl, h]
    rfl

/-- Witness: sealing discipline on the concrete one-string pool. -/
theorem seal_discipline_witness :
    (Builder.lock ⟨["a"], [], [], false⟩).add_string "b" = Option.none
    ∧ (Builder.lock ⟨["a"], [], [], false⟩).add_string "a"
        = some (Builder.lock ⟨["a"], [], [], false⟩, 0) :=
  ⟨(seal_discipline ⟨["a"], [], [], false⟩ "b").2.2.2.1 rfl,
   (seal_discipline ⟨["a"], [], [], false⟩ "a").2.2.2.2 0 rfl⟩

/-! ## Integer constant generation -/

/-- C9: `generate` emits a single `MAKE_INT v` for integers in
`[0, 65536)`, `MAKE_INT (-v)` followed by `UNARY_NEGATIVE` for integers
in `[-256, 0)`, and for every other integer registers the value as a
big-integer blob through `add_long` and emits `MAKE_LONG` on the
returned blob index. -/
theorem small_int_generation (fuel : Nat) (b : Builder) (cc : CC) (i : Int) :
    (0 ≤ i ∧ i < 65536 →
      generate (fuel + 1) b cc (Value.int i) = some (b, cc.emit MAKE_INT i.toNat 1))
    ∧ (-256 ≤ i ∧ i < 0 →
      generate (fuel + 1) b cc (Value.int i)
        = some (b, (cc.emit MAKE_INT (-i).toNat 1).emit UNARY_NEGATIVE 0 0))
    ∧ (i < -256 ∨ 65536 ≤ i →
      generate (fuel + 1) b cc (Value.int i)
        = (b.add_long i).map (fun p => (p.1, cc.emit MAKE_LONG p.2 1))) := by
  refine ⟨?_, ?_, ?_⟩
  · intro h
    simp only [generate]
    rw [if_pos h]
  · intro h
    simp only [generate]
    rw [if_neg (by omega), if_pos h]
  · intro h
    simp only [generate]
    rw [if_neg (by omega), if_neg (by omega)]
    cases ha : b.add_long i with
    | none => simp
    | some p =>
      cases p
      simp

/-- Witness: the three integer regimes at 7, -7 and 70000. -/
theorem small_int_generation_witness :
    generate 5 emptyBuilder (freshCC (Value.int 7)) (Value.int 7)
      = some (emptyBuilder, (freshCC (Value.int 7)).emit MAKE_INT 7 1)
    ∧ generate 5 emptyBuilder (freshCC (Value.int (-7))) (Value.int (-7))
      = some (emptyBuilder,
          ((freshCC (Value.int (-7))).emit MAKE_INT 7 1).emit UNARY_NEGATIVE 0 0)
    ∧ generate 5 emptyBuilder (freshCC (Value.int 70000)) (Value.int 70000)
      = some (⟨[], [Blob.longInt 70000], [], false⟩,
          (freshCC (Value.int 70000)).emit MAKE_LONG 0 1) := by
  refine ⟨?_, ?_, ?_⟩
  · exact (small_int_generation 4 emptyBuilder (freshCC (Value.int 7)) 7).1
      (by norm_num)
  · exact (small_int_generation 4 emptyBuilder (freshCC (Value.int (-7))) (-7)).2.1
      (by norm_num)
  · exact ((small_int_generation 4 emptyBuilder (freshCC (Value.int 70000)) 70000).2.2
      (Or.inr (by norm_num))).trans rfl

/-! ## The end-to-end composite scenario -/

/-- The composite value
`(0, 1000, -1, "Hello world", "你好", b"hello world", 3.14, 0.5j)` built
by the default path of `main` (3.14 is the decimal `⟨314, 2⟩`; `0.5j` is
`complex(real=0.0, imag=0.5)`). -/
def compositeValue : Value :=
  Value.tuple [Value.int 0, Value.int 1000, Value.int (-1),
    Value.str "Hello world", Value.str "你好",
    Value.bytes [104, 101, 108, 108, 111, 32, 119, 111, 114, 108, 100],
    Value.float ⟨314, 2⟩, Value.complex ⟨0, 0⟩ ⟨5, 1⟩]

set_option maxHeartbeats 4000000 in
/-- C3 counterexample: the outer tuple's constant-program is the
lazy-load sequence, not the claimed sequence of push instructions — the
tuple case of `generate` registers every element as its own
constant-program and emits `LAZY_LOAD_CONSTANT`. -/
theorem composite_outer_program_counterexample :
    ((buildAll 20 [compositeValue]).bind fun b => b.constants[0]?).map CC.instructions
      = some [(LAZY_LOAD_CONSTANT, 1), (LAZY_LOAD_CONSTANT, 2), (LAZY_LOAD_CONSTANT, 3),
          (LAZY_LOAD_CONSTANT, 4), (LAZY_LOAD_CONSTANT, 5), (LAZY_LOAD_CONSTANT, 6),
          (LAZY_LOAD_CONSTANT, 7), (LAZY_LOAD_CONSTANT, 8), (BUILD_TUPLE, 8),
          (RETURN_CONSTANT, 0)]
    ∧ ([(LAZY_LOAD_CONSTANT, 1), (LAZY_LOAD_CONSTANT, 2), (LAZY_LOAD_CONSTANT, 3),
          (LAZY_LOAD_CONSTANT, 4), (LAZY_LOAD_CONSTANT, 5), (LAZY_LOAD_CONSTANT, 6),
          (LAZY_LOAD_CONSTANT, 7), (LAZY_LOAD_CONSTANT, 8), (BUILD_TUPLE, 8),
          (RETURN_CONSTANT, 0)] : List (Nat × Nat))
      ≠ [(MAKE_INT, 0), (MAKE_INT, 1000), (MAKE_INT, 1), (UNARY_NEGATIVE, 0),
          (MAKE_STRING, 0), (MAKE_STRING, 1), (MAKE_BYTES, 0), (MAKE_FLOAT, 1),
          (MAKE_FLOAT, 2), (MAKE_FLOAT, 3), (MAKE_COMPLEX, 0), (RETURN_CONSTANT, 0)] := by
  constructor
  · simp [compositeValue, buildAll, addConstant, setIndex, generate, genItems, poolFind,
      poolAdd, pyEq, pyEqList, toNum, floatEq, blobEq, Builder.add_long, Builder.add_blob,
      Builder.add_float, Builder.add_bytes, Builder.add_string, CC.emit, freshCC,
      emptyBuilder, UNARY_NEGATIVE, BUILD_TUPLE, LAZY_LOAD_CONSTANT, MAKE_STRING,
      MAKE_INT, MAKE_LONG, MAKE_FLOAT, MAKE_COMPLEX, MAKE_BYTES, LOAD_COMMON_CONSTANT,
      RETURN_CONSTANT]
  · decide

set_option maxHeartbeats 4000000 in
/-- C3 (amended): building the composite value yields the string pool
`["Hello world", "你好"]`, the blob pool `[bytes b"hello world",
3.14, 0.0, 0.5]`, an outer program of eight `LAZY_LOAD_CONSTANT`
loads (indices 1..8) + `BUILD_TUPLE 8` + `RETURN_CONSTANT 0` with
max stack depth 8, and the claimed push instructions appear in the
eight element programs, each closed by its own `RETURN_CONSTANT`. -/
theorem composite_build_amended :
    (buildAll 20 [compositeValue]).map
        (fun b => (b.strings, b.blobs,
          b.constants.map (fun cc => (cc.instructions, cc.max_stacksize))))
      = some (["Hello world", "你好"],
          [Blob.bytes [104, 101, 108, 108, 111, 32, 119, 111, 114, 108, 100],
           Blob.float ⟨314, 2⟩, Blob.float ⟨0, 0⟩, Blob.float ⟨5, 1⟩],
          [([(LAZY_LOAD_CONSTANT, 1), (LAZY_LOAD_CONSTANT, 2), (LAZY_LOAD_CONSTANT, 3),
             (LAZY_LOAD_CONSTANT, 4), (LAZY_LOAD_CONSTANT, 5), (LAZY_LOAD_CONSTANT, 6),
             (LAZY_LOAD_CONSTANT, 7), (LAZY_LOAD_CONSTANT, 8), (BUILD_TUPLE, 8),
             (RETURN_CONSTANT, 0)], 8),
           ([(MAKE_INT, 0), (RETURN_CONSTANT, 1)], 1),
           ([(MAKE_INT, 1000), (RETURN_CONSTANT, 2)], 1),
           ([(MAKE_INT, 1), (UNARY_NEGATIVE, 0), (RETURN_CONSTANT, 3)], 1),
           ([(MAKE_STRING, 0), (RETURN_CONSTANT, 4)], 1),
           ([(MAKE_STRING, 1), (RETURN_CONSTANT, 5)], 1),
           ([(MAKE_BYTES, 0), (RETURN_CONSTANT, 6)], 1),
           ([(MAKE_FLOAT, 1), (RETURN_CONSTANT, 7)], 1),
           ([(MAKE_FLOAT, 2), (MAKE_FLOAT, 3), (MAKE_COMPLEX, 0),
             (RETURN_CONSTANT, 8)], 2)]) := by
  simp [compositeValue, buildAll, addConstant, setIndex, generate, genItems, poolFind,
    poolAdd, pyEq, pyEqList, toNum, floatEq, blobEq, Builder.add_long, Builder.add_blob,
    Builder.add_float, Builder.add_bytes, Builder.add_string, CC.emit, freshCC,
    emptyBuilder, UNARY_NEGATIVE, BUILD_TUPLE, LAZY_LOAD_CONSTANT, MAKE_STRING,
    MAKE_INT, MAKE_LONG, MAKE_FLOAT, MAKE_COMPLEX, MAKE_BYTES, LOAD_COMMON_CONSTANT,
    RETURN_CONSTANT]

/-! ## The Reader blob-access bug and negative big integers -/

/-- The container produced by building the single constant `b"ab"` and
serializing the locked Builder — the concrete failing input for the
Reader's `get_bytes`. -/
def exContainer : Option (List Nat) :=
  (buildAll 10 [Value.bytes [97, 98]]).bind fun b => builderGetBytes (Builder.lock b)

set_option maxHeartbeats 1000000 in
/-- C1: on the container interning the blob `b"ab"` (bytes 97, 98), the
Reader's `get_bytes 0` seeks to the recorded offset and parses the
record, but returns the varint length `2` instead of the blob's byte
content `[97, 98]` (which the spec-described parse at the same offset
does return), and caches and returns that same length `2` on the
repeated call — `Reader.read_bytes` ends in `return n` instead of
`return b`. -/
theorem reader_get_bytes_returns_length :
    (exContainer.bind fun d => (Pyc.load d).bind fun p => (p.get_bytes 0).map Prod.fst)
      = some 2
    ∧ (exContainer.bind fun d => (Pyc.load d).bind fun p =>
        (read_bytes_spec ⟨d, p.blob_offsets.getD 0 0⟩).map Prod.fst)
      = some [97, 98]
    ∧ (exContainer.bind fun d => (Pyc.load d).bind fun p =>
        (p.get_bytes 0).bind fun q =>
          (q.2.get_bytes 0).map fun q2 => (q.1, q2.1, q2.2.blobs))
      = some (2, 2, [some 2]) :=
  ⟨rfl, rfl, rfl⟩

/-- C10: for every integer below -256, `add_constant` succeeds and
returns a pool index, registering the value as a `LongInt` blob, but
serializing the locked builder fails because `LongInt.get_bytes` feeds
the negative value to `encode_varint`, whose `assert i > 0` fires. -/
theorem negative_long_serialization_fails (i : Int) (h : i < -256) :
    ∃ b2, addConstant 3 emptyBuilder (Value.int i) = some (b2, 0)
      ∧ b2.blobs = [Blob.longInt i]
      ∧ builderGetBytes (Builder.lock b2) = Option.none := by
  have h1 : ¬ (0 ≤ i ∧ i < 65536) := by omega
  have h2 : ¬ (-256 ≤ i ∧ i < 0) := by omega
  have h3 : ¬ i = 0 := by omega
  have h4 : ¬ 0 < i := by omega
  refine ⟨⟨[], [Blob.longInt i],
    [⟨Value.int i, [(MAKE_LONG, 0), (RETURN_CONSTANT, 0)], 1, 1, 0⟩], false⟩, ?_, rfl, ?_⟩
  · simp [addConstant, setIndex, generate, poolFind, poolAdd, blobEq,
      Builder.add_long, Builder.add_blob, CC.emit, freshCC, emptyBuilder, h1, h2,
      MAKE_LONG, RETURN_CONSTANT]
  · simp [builderGetBytes, Builder.lock, blobGetBytes, encode_varint, h3, h4,
      List.mapM_cons, List.mapM_nil, List.mapM.loop, Option.bind]

/-- Witness: the failure pipeline at the concrete integer -300. -/
theorem negative_long_serialization_fails_witness :
    ∃ b2, addConstant 3 emptyBuilder (Value.int (-300)) = some (b2, 0)
      ∧ b2.blobs = [Blob.longInt (-300)]
      ∧ builderGetBytes (Builder.lock b2) = Option.none :=
  negative_long_serialization_fails (-300) (by norm_num)
